import Mathlib

/-!
Verification of the wikiseek core: the offset index (`src/main.go`), the
bzip2 range extractor (`src/main.go`), the index snapshot cache
(`src/unnamed/part_004`), and the wikitext-to-HTML converter
(`src/wikiconverter.go`).  Go code is shallowly embedded: strings are Lean
`String`/`List Char`, machine integers are `Int` with explicit `% 2^w`
where Go truncates, maps are association lists, and file I/O is modelled
by passing the file's bytes explicitly.
-/

namespace Wikiseek

set_option maxRecDepth 10000

/-! ## Data model (src/main.go lines 89-99) -/

/-- Go `OffsetPair { Start, End int64 }`. -/
structure OffsetPair where
  Start : Int
  End : Int
deriving DecidableEq, Repr

/-- Go `IndexEntry { Offsets *OffsetPair; PageID int; Title string }`.
The pointer is modelled by value; sharing is tracked through the cache. -/
structure IndexEntry where
  Offsets : OffsetPair
  PageID : Int
  Title : String
deriving DecidableEq, Repr

/-! ## offsetCache (src/main.go lines 101-123)

Go: `key := uint64(start)<<32 | uint64(uint32(end))`.  With 64-bit
wraparound, `uint64(start)<<32` is `(start mod 2^32) * 2^32` and
`uint64(uint32(end))` is `end mod 2^32`; the low half of the shifted part
is zero, so the `|` is addition. -/

/-- The dedup key of `offsetCache.getOrCreate`. -/
def pairKey (start e : Int) : Nat :=
  ((start % (2 ^ 32)).toNat) * 2 ^ 32 + ((e % (2 ^ 32)).toNat)

/-- `offsetCache.pairs`, an association list from key to stored pair
(Go `map[uint64]*OffsetPair`). -/
abbrev OffsetCache : Type := List (Nat × OffsetPair)

/-- Go `newOffsetCache()`. -/
def newOffsetCache : OffsetCache := []

/-- Go map access `oc.pairs[key]`. -/
def cacheFind : OffsetCache → Nat → Option OffsetPair
  | [], _ => none
  | (k, p) :: rest, key => if k = key then some p else cacheFind rest key

/-- Go `(oc *offsetCache) getOrCreate(start, end int64) *OffsetPair`:
on a key hit the cached pair is returned, otherwise a fresh pair is
stored and returned. -/
def getOrCreate (oc : OffsetCache) (start e : Int) : OffsetPair × OffsetCache :=
  match cacheFind oc (pairKey start e) with
  | some pair => (pair, oc)
  | none => (⟨start, e⟩, (pairKey start e, (⟨start, e⟩ : OffsetPair)) :: oc)

/-! ## loadIndex (src/main.go lines 134-205), after line scanning.

The scan produces raw `(start, pageID, title)` triples; the first pass
interns `(start, 0)` pairs through the cache, the entries are then sorted
by `Offsets.Start`, and a second pass replaces each entry's pair with
`getOrCreate(start, nextHigherStart)`. -/

/-- One scanned index line after parsing: `start:pageId:title`. -/
structure RawEntry where
  start : Int
  pageId : Int
  title : String
deriving DecidableEq, Repr

/-- First pass of `loadIndex`: `offsets.getOrCreate(startOffset, 0)` for
each scanned line, threading the cache. -/
def loadPass1 : List RawEntry → OffsetCache → List IndexEntry × OffsetCache
  | [], oc => ([], oc)
  | r :: rest, oc =>
    let res := getOrCreate oc r.start 0
    let recres := loadPass1 rest res.2
    (⟨res.1, r.pageId, r.title⟩ :: recres.1, recres.2)

/-- The comparison of `sort.Slice(allEntries, ...)`:
`allEntries[i].Offsets.Start < allEntries[j].Offsets.Start`, closed to a
non-strict comparison for the model sort. -/
def entryLE (a b : IndexEntry) : Bool := a.Offsets.Start ≤ b.Offsets.Start

/-- Insert into a list sorted by `entryLE`. -/
def insertEntry (e : IndexEntry) : List IndexEntry → List IndexEntry
  | [] => [e]
  | x :: xs => if entryLE e x then e :: x :: xs else x :: insertEntry e xs

/-- Model of `sort.Slice(allEntries, less)` with
`less i j = Start_i < Start_j`: Go's algorithm is an unspecified unstable
sort, so any permutation sorted ascending by `Offsets.Start` is a
faithful model; insertion sort is used because it is structurally
recursive (hence computable by the kernel). -/
def sortEntries : List IndexEntry → List IndexEntry
  | [] => []
  | e :: rest => insertEntry e (sortEntries rest)

/-- The inner scan of the second pass: the first start strictly greater
than `s` among the remaining entries, `0` if none. -/
def nextHigherStart (s : Int) : List Int → Int
  | [] => 0
  | x :: xs => if s < x then x else nextHigherStart s xs

/-- Second pass of `loadIndex`: for each entry, look ahead for the next
higher start and re-intern the pair through the cache. -/
def loadPass2 : List IndexEntry → OffsetCache → List IndexEntry
  | [], _ => []
  | e :: rest, oc =>
    let nxt := nextHigherStart e.Offsets.Start (rest.map (fun x => x.Offsets.Start))
    let res := getOrCreate oc e.Offsets.Start nxt
    { e with Offsets := res.1 } :: loadPass2 rest res.2

/-- `loadIndex` after scanning: pass 1, sort by start, pass 2. -/
def loadIndexModel (raws : List RawEntry) : List IndexEntry :=
  let p1 := loadPass1 raws newOffsetCache
  loadPass2 (sortEntries p1.1) p1.2

/-- The smallest start strictly greater than `s` among `starts`
(`none` when there is no greater start). -/
def minStartAbove (s : Int) (starts : List Int) : Option Int :=
  (starts.filter (fun x => decide (s < x))).min?

/-- The second pass with the cache behaving as a true `(start, end)`-keyed
map: each entry's pair becomes `(start, next higher start)` by value.
`loadPass2` coincides with this whenever no `pairKey` collision occurs. -/
def assignEnds : List IndexEntry → List IndexEntry
  | [] => []
  | e :: rest =>
    { e with
      Offsets :=
        ⟨e.Offsets.Start,
          nextHigherStart e.Offsets.Start (rest.map (fun x => x.Offsets.Start))⟩ } ::
      assignEnds rest

/-- Offsets representable without truncation by the dedup key: the key is
injective on pairs whose components lie in `[0, 2^32)`. -/
def InR (x : Int) : Prop := 0 ≤ x ∧ x < 2 ^ 32

/-- Cache well-formedness: every stored pair sits under its own key and
has in-range components. -/
def CacheOK (oc : OffsetCache) : Prop :=
  ∀ kp ∈ oc, kp.1 = pairKey kp.2.Start kp.2.End ∧ InR kp.2.Start ∧ InR kp.2.End

/-- The concrete build that exhibits the dedup-key collision: two index
lines with start offsets `5` and `2^32`. -/
def collisionRaws : List RawEntry := [⟨5, 1, "A"⟩, ⟨2 ^ 32, 2, "B"⟩]

/-- The index invariant claimed for built indexes: entries sorted
ascending by start, and each entry's end is the smallest strictly
greater start (`0`, i.e. unbounded, for the last group). -/
def IndexInvariant (out : List IndexEntry) : Prop :=
  List.Pairwise (fun a b => a.Offsets.Start ≤ b.Offsets.Start) out ∧
    ∀ p ∈ out,
      p.Offsets.End =
        (minStartAbove p.Offsets.Start (out.map (fun e => e.Offsets.Start))).getD 0

/-! ## searchIndex (src/main.go lines 207-216) -/

/-- ASCII model of Go `strings.ToLower` (the claims never depend on
non-ASCII case mapping). -/
def goToLower (s : String) : String := String.mk (s.data.map Char.toLower)

/-- Go `strings.Contains` (substring test), on rune lists. -/
def containsSub (hay needle : List Char) : Bool :=
  if needle.isPrefixOf hay then true
  else
    match hay with
    | [] => false
    | _ :: t => containsSub t needle

/-- Go `searchIndex`: case-insensitive substring filter over the titles,
keeping index order. -/
def searchIndex (entries : List IndexEntry) (query : String) : List IndexEntry :=
  let q := goToLower query
  entries.filter (fun e => containsSub (goToLower e.Title).data q.data)

/-! ## findPageByTitle (src/main.go lines 218-236) -/

/-- `strings.ReplaceAll(title, "_", " ")`. -/
def underscoresToSpaces (s : String) : String :=
  String.mk (s.data.map (fun c => if c = '_' then ' ' else c))

/-- ASCII model of Go `strings.EqualFold` (case-insensitive equality). -/
def equalFold (a b : String) : Bool :=
  a.data.map Char.toLower == b.data.map Char.toLower

/-- Go `findPageByTitle`: underscores to spaces, first case-sensitive
match, then first case-insensitive match, else not found. -/
def findPageByTitle (entries : List IndexEntry) (title : String) : Option IndexEntry :=
  let searchTitle := underscoresToSpaces title
  match entries.find? (fun e => e.Title == searchTitle) with
  | some e => some e
  | none => entries.find? (fun e => equalFold e.Title searchTitle)

/-! ## ExtractBzip2Range (src/main.go lines 32-59)

The archive is a byte list, decompression is an explicit parameter
(`compress/bzip2` itself is outside the embedding); `dec` returning
`none` is a decompression error.  Go semantics modelled:
`make([]byte, endOffset-startOffset)` sizes the read buffer (a negative
size panics), `io.ReadFull` returns `io.EOF` (tolerated by the code,
leaving the zeroed buffer) only when nothing could be read, and
`io.ErrUnexpectedEOF` (an error) on a partial read. -/

def extractBzip2Range (dec : List Nat → Option (List Nat)) (file : List Nat)
    (startOffset endOffset : Int) : Option (List Nat) :=
  if startOffset < 0 ∨ endOffset < 0 ∨ (0 < endOffset ∧ endOffset ≤ startOffset) then
    none
  else if endOffset - startOffset < 0 then
    none -- Go: make with a negative length panics
  else
    let n := (endOffset - startOffset).toNat
    let got := (file.drop startOffset.toNat).take n
    if got.length = n then dec got
    else if got.length = 0 then dec (List.replicate n 0) -- io.EOF tolerated, zeroed buffer
    else none -- partial read: io.ErrUnexpectedEOF

/-- A toy valid single-block archive for exercising `extractBzip2Range`:
the bytes `[7, 7]` decompress to `[1, 2, 3]`; anything else (in
particular the empty buffer, as with real bzip2) is a decompression
error. -/
def toyDec (l : List Nat) : Option (List Nat) :=
  if l = [7, 7] then some [1, 2, 3] else none

/-! ## Index snapshot cache (src/unnamed/part_004, saveIndexCache /
loadIndexCache)

`gob` over `gzip` serialises the `[]IndexEntry` as a self-describing
record stream; modelled as a token stream of the four fields of each
entry.  `gob` flattens the `*OffsetPair` pointer to its pointee's
values. -/

inductive SnapTok where
  | int (i : Int)
  | str (s : String)
deriving DecidableEq, Repr

/-- `saveIndexCache`: encode each entry's fields in order. -/
def saveIndexCache : List IndexEntry → List SnapTok
  | [] => []
  | e :: rest =>
    SnapTok.int e.Offsets.Start :: SnapTok.int e.Offsets.End ::
      SnapTok.int e.PageID :: SnapTok.str e.Title :: saveIndexCache rest

/-- `loadIndexCache`: decode the stream; any malformed shape is a decode
error (`none`), which `loadIndex` treats as a cache miss. -/
def loadIndexCache : List SnapTok → Option (List IndexEntry)
  | [] => some []
  | SnapTok.int s :: SnapTok.int e :: SnapTok.int pid :: SnapTok.str t :: rest =>
    (loadIndexCache rest).map (fun es => ⟨⟨s, e⟩, pid, t⟩ :: es)
  | _ => none

/-! ## MarkupEngine (src/wikiconverter.go)

Strings are processed as rune lists (`List Char`); Go operates on UTF-8
bytes, which agrees with rune-level processing for all the operations
modelled here.  Go's regexes are modelled by explicit scanners with the
same leftmost / greedy / lazy semantics; each scanner is documented at
its definition. -/

/-- Go `unicode.IsSpace` (the rune set of `strings.TrimSpace`). -/
def isGoSpace (c : Char) : Bool :=
  c = ' ' ∨ c = '\t' ∨ c = '\n' ∨ c = Char.ofNat 11 ∨ c = Char.ofNat 12 ∨
    c = '\r' ∨ c = Char.ofNat 0x85 ∨ c = Char.ofNat 0xA0 ∨
    c = Char.ofNat 0x1680 ∨ (0x2000 ≤ c.toNat ∧ c.toNat ≤ 0x200A) ∨
    c = Char.ofNat 0x2028 ∨ c = Char.ofNat 0x2029 ∨ c = Char.ofNat 0x202F ∨
    c = Char.ofNat 0x205F ∨ c = Char.ofNat 0x3000

/-- Go `strings.TrimSpace` on rune lists. -/
def trimGo (l : List Char) : List Char :=
  ((l.dropWhile isGoSpace).reverse.dropWhile isGoSpace).reverse

/-- Go `strings.TrimSpace`. -/
def goTrimSpace (s : String) : String := String.mk (trimGo s.data)

/-- Go `strings.Split(s, "\n")` on rune lists. -/
def splitLines : List Char → List (List Char)
  | [] => [[]]
  | c :: t =>
    let r := splitLines t
    if c = '\n' then [] :: r
    else
      match r with
      | h :: rest => (c :: h) :: rest
      | [] => [[c]]

/-- Go `strings.Join(ls, sep)` on rune lists. -/
def joinWith (sep : List Char) : List (List Char) → List Char
  | [] => []
  | [x] => x
  | x :: xs => x ++ sep ++ joinWith sep xs

/-- Go `strings.Replace(s, old, new, 1)` on rune lists: replace the
first occurrence only; if `old` does not occur, the input is returned
unchanged. -/
def replaceFirstL (old new : List Char) : List Char → List Char
  | [] => if old.isPrefixOf ([] : List Char) then new else []
  | c :: t =>
    if old.isPrefixOf (c :: t) then new ++ (c :: t).drop old.length
    else c :: replaceFirstL old new t

/-- Go `strings.Replace(content, old, new, 1)`. -/
def replaceFirst (content old new : String) : String :=
  String.mk (replaceFirstL old.data new.data content.data)

/-! ### processLists (src/wikiconverter.go lines 20-67)

The Go stack `listStack` appends/pops at the slice end; it is modelled
head-first (push = cons). -/

/-- A line whose trimmed form starts with `*` or `#`
(`strings.HasPrefix(trimmed, "*") || strings.HasPrefix(trimmed, "#")`). -/
def isListLine (l : String) : Bool :=
  (goTrimSpace l).data.head? = some '*' ∨ (goTrimSpace l).data.head? = some '#'

/-- The Go loop `for len(listStack) > depth { emit close; pop }`:
returns the emitted closing tags and the remaining stack. -/
def closeToDepth : List String → Nat → List String × List String
  | [], _ => ([], [])
  | t :: rest, depth =>
    if rest.length + 1 > depth then
      let r := closeToDepth rest depth
      (("</" ++ t ++ ">") :: r.1, r.2)
    else ([], t :: rest)

/-- The Go loop `for len(listStack) < depth { emit open; push }`, with
the iteration count made explicit: returns the emitted opening tags and
the grown stack. -/
def openN (listType : String) (stack : List String) : Nat → List String × List String
  | 0 => ([], stack)
  | Nat.succ n =>
    let r := openN listType (listType :: stack) n
    (("<" ++ listType ++ ">") :: r.1, r.2)

/-- The per-line loop of `processLists`, threading the list stack. -/
def processListsLines : List String → List String → List String
  | [], stack => stack.map (fun t => "</" ++ t ++ ">")
  | line :: rest, stack =>
    let trimmed := goTrimSpace line
    if isListLine line then
      let listType := if trimmed.data.head? = some '#' then "ol" else "ul"
      let depth := (trimmed.data.takeWhile (fun c => c = '*' ∨ c = '#')).length
      let closed := closeToDepth stack depth
      let opened := openN listType closed.2 (depth - closed.2.length)
      let item := String.mk (trimGo (trimmed.data.drop depth))
      closed.1 ++ opened.1 ++
        (("<li>" ++ item ++ "</li>") :: processListsLines rest opened.2)
    else
      (stack.map fun t => "</" ++ t ++ ">") ++ line :: processListsLines rest []

/-- Go `processLists`: wikitext list markup to HTML lists. -/
def processLists (content : String) : String :=
  String.mk (joinWith ['\n']
    ((processListsLines ((splitLines content.data).map String.mk) []).map String.data))

/-! ### Header stage (src/wikiconverter.go lines 72-73 and 381-389)

`headerPattern` is the anchored regex with leading group `(={1,6})`,
`\s*`, lazy `(.+?)`, `\s*`, and trailing `={1,6}` before the line end.
The matcher below explores the regex's choice points in backtracking
priority order: earlier subexpressions fix their preference first
(greedy descending, lazy ascending), later ones backtrack first.
The `(?m)` anchors make matches line-delimited; the replacement is
applied per line (Go's `\s*` could in principle also absorb a newline
between two lines, a corner no claim depends on). -/

/-- Go regexp `\s` (RE2: space, tab, newline, form feed, carriage
return). -/
def isRegexSpace (c : Char) : Bool :=
  c = ' ' ∨ c = '\t' ∨ c = '\n' ∨ c = Char.ofNat 12 ∨ c = '\r'

/-- Backtracking matcher for `^(={1,6})\s*(.+?)\s*={1,6}$` on one line:
returns the captured level (`len` of group 1) and heading text. -/
def tryHeader (line : List Char) : Option (Nat × List Char) :=
  [6, 5, 4, 3, 2, 1].findSome? fun k1 =>
    if (List.replicate k1 '=').isPrefixOf line then
      let r1 := line.drop k1
      ((List.range ((r1.takeWhile isRegexSpace).length + 1)).reverse).findSome? fun j1 =>
        let r2 := r1.drop j1
        ((List.range r2.length).map (· + 1)).findSome? fun t =>
          if (r2.take t).all (fun c => c ≠ '\n') then
            let r3 := r2.drop t
            ((List.range ((r3.takeWhile isRegexSpace).length + 1)).reverse).findSome? fun j2 =>
              let r4 := r3.drop j2
              if 1 ≤ r4.length ∧ r4.length ≤ 6 ∧ r4.all (fun c => c = '=') then
                some (k1, r2.take t)
              else none
          else none
    else none

/-- The replacement of `headerPattern.ReplaceAllStringFunc`:
`"<h" + string(rune('0'+level)) + ">" + text + "</h" + ... + ">"`. -/
def headerHtml (k : Nat) (text : List Char) : List Char :=
  ("<h").data ++ [Char.ofNat (48 + k)] ++ (">").data ++ text ++
    ("</h").data ++ [Char.ofNat (48 + k)] ++ (">").data

/-- One line of the header stage. -/
def applyHeaderLineL (line : List Char) : List Char :=
  match tryHeader line with
  | some kt => headerHtml kt.1 kt.2
  | none => line

/-- The header stage of `ConvertWikiTextToHTML`. -/
def headersStage (content : String) : String :=
  String.mk (joinWith ['\n'] ((splitLines content.data).map applyHeaderLineL))

/-! ### Emphasis stage (src/wikiconverter.go lines 392-394)

`ReplaceAllString` for the lazy patterns `'''''(.*?)'''''`,
`'''(.*?)'''` and `''(.*?)''`: leftmost, non-overlapping matches with
the shortest inner text; `.` does not match a newline.  The delimiter is
passed with its first rune explicit so it is never empty; the fuel is
one more than the remaining input length, which a scan can never
exhaust because every step consumes at least one rune. -/

/-- The earliest closing delimiter: splits `l` as `inner ++ d ++ rest`
with the shortest newline-free `inner`. -/
def findCloseDelim (d : List Char) : List Char → Option (List Char × List Char)
  | [] => none
  | c :: t =>
    if d.isPrefixOf (c :: t) then some ([], (c :: t).drop d.length)
    else if c = '\n' then none
    else (findCloseDelim d t).map (fun p => (c :: p.1, p.2))

/-- Scan replacing every `d inner d` span by `pre inner post`. -/
def replaceAllDelimF (dh : Char) (dt pre post : List Char) : Nat → List Char → List Char
  | 0, l => l
  | _, [] => []
  | Nat.succ n, c :: t =>
    if (dh :: dt).isPrefixOf (c :: t) then
      match findCloseDelim (dh :: dt) ((c :: t).drop (dh :: dt).length) with
      | some p => pre ++ p.1 ++ post ++ replaceAllDelimF dh dt pre post n p.2
      | none => c :: replaceAllDelimF dh dt pre post n t
    else c :: replaceAllDelimF dh dt pre post n t

/-- The bold/italic stage: five, then three, then two quote marks. -/
def emphasisStage (l : List Char) : List Char :=
  let c1 := replaceAllDelimF '\'' (List.replicate 4 '\'')
    ("<strong><em>").data ("</em></strong>").data (l.length + 1) l
  let c2 := replaceAllDelimF '\'' (List.replicate 2 '\'')
    ("<strong>").data ("</strong>").data (c1.length + 1) c1
  replaceAllDelimF '\'' (List.replicate 1 '\'') ("<em>").data ("</em>").data
    (c2.length + 1) c2

/-! ### Link stage (src/wikiconverter.go lines 76 and 400-418)

`linkPattern` is `\[\[([^\[\]]+?)(?:\|([^\[\]]+?))?\]\]`.  A match is a
`[[`, a nonempty bracket-free run, then `]]`; lazy priority splits the
run at the first `|` that leaves both groups nonempty, otherwise the
whole run is the target. -/

/-- First `|` of the tail with a nonempty remainder. -/
def linkSplitTail : List Char → Option (List Char × List Char)
  | [] => none
  | c :: t =>
    if c = '|' ∧ t ≠ [] then some ([], t)
    else (linkSplitTail t).map (fun p => (c :: p.1, p.2))

/-- Split of the bracket-free run into target and alias (the first `|`
at index ≥ 1 with at least one character after it, per lazy-group
priority). -/
def linkSplit (run : List Char) : Option (List Char × List Char) :=
  match run with
  | [] => none
  | c :: t => (linkSplitTail t).map (fun p => (c :: p.1, p.2))

/-- Go `strings.ReplaceAll(s, old, "")` for a non-empty `old`. -/
def removeAllSubF (pat : List Char) : Nat → List Char → List Char
  | 0, l => l
  | _, [] => []
  | Nat.succ n, c :: t =>
    if pat ≠ [] ∧ pat.isPrefixOf (c :: t) then
      removeAllSubF pat n ((c :: t).drop pat.length)
    else c :: removeAllSubF pat n t

/-- The replacement function of the link stage: trims the target,
replaces spaces by underscores, strips `/wiki/`, and keeps the raw
target (or the trimmed alias) as the display text. -/
def linkReplacement (run : List Char) : List Char :=
  let g := linkSplit run
  let g1 := match g with | some p => p.1 | none => run
  let target0 := (trimGo g1).map (fun ch => if ch = ' ' then '_' else ch)
  let target := removeAllSubF ("/wiki/").data (target0.length + 1) target0
  let text := match g with | some p => trimGo p.2 | none => g1
  ("<a href=\"/wiki/").data ++ target ++ ("\">").data ++ text ++ ("</a>").data

/-- The link-stage scan: leftmost, non-overlapping matches. -/
def processLinksF : Nat → List Char → List Char
  | 0, l => l
  | _, [] => []
  | Nat.succ n, c :: t =>
    if c = '[' then
      match t with
      | c2 :: t2 =>
        if c2 = '[' then
          let run := t2.takeWhile (fun x => x ≠ '[' ∧ x ≠ ']')
          let after := t2.drop run.length
          if run ≠ [] ∧ after.take 2 = [']', ']'] then
            linkReplacement run ++ processLinksF n (after.drop 2)
          else c :: processLinksF n t
        else c :: processLinksF n t
      | [] => [c]
    else c :: processLinksF n t

/-! ### Template handlers (src/wikiconverter.go lines 93-368)

`RegisterTemplateHandler` compiles `(?i)^pattern$`; the registry is
consulted in registration order and the first match wins.  Literal
names are case-insensitive equality; `infobox\b.*`, `pp\b.*` and
`cite\b.*` are a case-insensitive prefix followed by a word boundary
and a newline-free tail (`.` does not cross a newline, and `$` is the
end of the name); `redirect.*` drops the boundary; `lang(?:x)?` is
`lang` or `langx`.  Case-insensitivity is modelled at ASCII level. -/

def lowerL (l : List Char) : List Char := l.map Char.toLower

/-- `(?i)^lit$` for a literal pattern. -/
def ciEq (a b : String) : Bool := lowerL a.data == lowerL b.data

/-- Go regexp `\w`. -/
def isWordChar (c : Char) : Bool := c.isAlphanum ∨ c = '_'

/-- The tail of `name` after a case-insensitive prefix. -/
def ciPrefixRest (name pre : String) : Option (List Char) :=
  if (lowerL pre.data).isPrefixOf (lowerL name.data) then
    some (name.data.drop pre.data.length)
  else none

/-- `(?i)^pre\b.*$`. -/
def matchWordPrefixDotStar (name pre : String) : Bool :=
  match ciPrefixRest name pre with
  | some rest =>
    (match rest with
     | [] => true
     | c :: _ => ! isWordChar c) && rest.all (fun c => c ≠ '\n')
  | none => false

/-- `(?i)^pre.*$`. -/
def matchPrefixDotStar (name pre : String) : Bool :=
  match ciPrefixRest name pre with
  | some rest => rest.all (fun c => c ≠ '\n')
  | none => false

/-- Go `strings.SplitN(s, sep, 2)` at the first occurrence of a
one-rune separator (`none` when the separator does not occur). -/
def splitFirst (sep : Char) : List Char → Option (List Char × List Char)
  | [] => none
  | c :: t =>
    if c = sep then some ([], t)
    else (splitFirst sep t).map (fun p => (c :: p.1, p.2))

/-- Word separator of Go `strings.Title`. -/
def isSepGo (c : Char) : Bool := ¬ (c.isAlphanum ∨ c = '_')

def goTitleAux : List Char → Char → List Char
  | [], _ => []
  | c :: t, prev => (if isSepGo prev then c.toUpper else c) :: goTitleAux t c

/-- Go `strings.Title` (ASCII model): uppercase each letter that starts
a word. -/
def goTitle (s : String) : String := String.mk (goTitleAux s.data ' ')

def digitsVal (l : List Char) : Option Nat :=
  if l ≠ [] ∧ l.all Char.isDigit then
    some (l.foldl (fun acc c => acc * 10 + (c.toNat - 48)) 0)
  else none

/-- The `atoi` helper (src/wikiconverter.go lines 370-376):
`strconv.Atoi` with any error (including int64 overflow) mapped to 0. -/
def goAtoi (s : String) : Int :=
  match s.data with
  | '-' :: ds =>
    match digitsVal ds with
    | some n => if (n : Int) ≤ 2 ^ 63 then -(n : Int) else 0
    | none => 0
  | '+' :: ds =>
    match digitsVal ds with
    | some n => if (n : Int) < 2 ^ 63 then (n : Int) else 0
    | none => 0
  | ds =>
    match digitsVal ds with
    | some n => if (n : Int) < 2 ^ 63 then (n : Int) else 0
    | none => 0

/-- `fmt.Sprintf("%02d", n)`. -/
def padZero2 (n : Int) : String :=
  if 0 ≤ n ∧ n < 10 then "0" ++ toString n else toString n

/-- `strings.Join(rows, "")`. -/
def strConcat (ls : List String) : String := String.mk ((ls.map String.data).flatten)

/-- The repeated `<a href="arg">arg</a>` list joined by `", "`. -/
def joinLinksGo (args : List String) : String :=
  String.mk (joinWith (", ").data
    ((args.map (fun a => "<a href=\"" ++ a ++ "\">" ++ a ++ "</a>")).map String.data))

def shortDescriptionHandler : List String → String
  | a0 :: _ => "<em>" ++ a0 ++ "</em>"
  | [] => ""

/-- The shared shape of the `see also` / `other uses` / `main` /
`further` handlers. -/
def noteHandler (label : String) (args : List String) : String :=
  if args = [] then ""
  else "<div class=\"note\">" ++ label ++ joinLinksGo args ++ "</div>"

def skipHandler : List String → String := fun _ => ""

def infoboxRows (rest : List String) : List String :=
  rest.filterMap (fun arg =>
    match splitFirst '=' arg.data with
    | some p => some ("<tr><th>" ++ String.mk (trimGo p.1) ++ "</th><td>" ++
        String.mk (trimGo p.2) ++ "</td></tr>")
    | none => none)

def infoboxHandler (args : List String) : String :=
  let caption :=
    match args with
    | a0 :: _ =>
      match splitFirst ' ' a0.data with
      | some p => goTitle (String.mk p.2) ++ " Information"
      | none => "Information"
    | [] => "Information"
  match args with
  | [] => ""
  | _ :: rest =>
    let rows := infoboxRows rest
    if rows = [] then ""
    else "<table class=\"infobox\"><caption>" ++ caption ++ "</caption>" ++
      strConcat rows ++ "</table>"

def forHandler : List String → String
  | a0 :: a1 :: _ =>
    "<div class=\"note\">For " ++ a0 ++ ", see <a href=\"" ++ a1 ++ "\">" ++
      a1 ++ "</a></div>"
  | _ => ""

/-- Citation rows; the 40-byte display truncation is modelled at rune
level. -/
def citationRows (rest : List String) : List String :=
  rest.filterMap (fun arg =>
    match splitFirst '=' arg.data with
    | some p =>
      let value := String.mk (trimGo p.2)
      let displayValue :=
        if value.length > 40 then String.mk (value.data.take 37) ++ "..." else value
      some ("<tr><td>" ++ String.mk (trimGo p.1) ++ "</td><td title=\"" ++ value ++
        "\">" ++ displayValue ++ "</td></tr>")
    | none => none)

def citationHandler (args : List String) : String :=
  match args with
  | [] => "*"
  | a0 :: rest =>
    let citationType :=
      match splitFirst ' ' a0.data with
      | some p => goTitle (String.mk p.2)
      | none => "general"
    let rows := citationRows rest
    if rows = [] then "*"
    else
      "<span class=\"citation-marker\">*<div class=\"citation-table\"><table><caption>Citation: "
        ++ citationType ++ "</caption>" ++ strConcat rows ++ "</table></div></span>"

def nowrapHandler : List String → String
  | a0 :: _ => "<span style=\"white-space:nowrap\">" ++ a0 ++ "</span>"
  | [] => ""

def plainlistHandler (args : List String) : String :=
  match args with
  | [] => "<ul class=\"plainlist\"></ul>"
  | a0 :: _ =>
    let items := (splitLines a0.data).filterMap (fun l =>
      let line := trimGo l
      if ("* ").data.isPrefixOf line then
        some ("<li>" ++ String.mk (line.drop 2) ++ "</li>")
      else none)
    "<ul class=\"plainlist\">" ++ String.mk (joinWith ['\n'] (items.map String.data))
      ++ "</ul>"

def langHandler : List String → String
  | lang :: text :: _ =>
    "<span title=\"" ++ lang ++ " language text\"><em>" ++ text ++ "</em></span>"
  | _ => ""

def nbspHandler : List String → String := fun _ => "&nbsp;"

def startDateHandler : List String → String
  | year :: month :: day :: _ :: _ =>
    year ++ "-" ++ padZero2 (goAtoi month) ++ "-" ++ padZero2 (goAtoi day)
  | _ => ""

def marriageHandler : List String → String
  | name :: startYear :: endDate :: _ =>
    name ++ " (m. " ++ startYear ++ " - " ++ endDate ++ ")"
  | _ => ""

def convertHandler : List String → String
  | value :: unit :: _ => value ++ unit
  | _ => ""

/-- `time.Now()` modelled as the fixed date 2026-10-11; no claim depends
on the clock. -/
def modelNowYear : Int := 2026

def modelNowMonth : Int := 10

def modelNowDay : Int := 11

def dateAndAgeHandler (suffix : String) (args : List String) : String :=
  match args with
  | a0 :: a1 :: a2 :: _ =>
    let year := goAtoi a0
    let month := goAtoi a1
    let day := goAtoi a2
    let date := toString year ++ "-" ++ padZero2 month ++ "-" ++ padZero2 day
    let years0 := modelNowYear - year
    let years :=
      if modelNowMonth < month ∨ (modelNowMonth = month ∧ modelNowDay < day) then
        years0 - 1
      else years0
    if suffix = "age" then date ++ " (age " ++ toString years ++ ")"
    else date ++ " (" ++ toString years ++ " " ++ suffix ++ ")"
  | _ => ""

/-- The handler registry consulted in registration order (the `init`
function of src/wikiconverter.go); `none` means no pattern matches. -/
def dispatchTemplate (name : String) : Option (List String → String) :=
  if ciEq name "short description" then some shortDescriptionHandler
  else if ciEq name "see also" then some (noteHandler "See Also: ")
  else if ciEq name "other uses" then some (noteHandler "Other Uses: ")
  else if ciEq name "main" then some (noteHandler "Main article: ")
  else if ciEq name "further" then some (noteHandler "Futher information: ")
  else if matchWordPrefixDotStar name "infobox" then some infoboxHandler
  else if ciEq name "for" then some forHandler
  else if matchPrefixDotStar name "redirect" then some skipHandler
  else if ciEq name "good page" then some skipHandler
  else if matchWordPrefixDotStar name "pp" then some skipHandler
  else if ciEq name "use mdy dates" then some skipHandler
  else if ciEq name "use dmy dates" then some skipHandler
  else if ciEq name "use american english" then some skipHandler
  else if ciEq name "multiple issues" then some skipHandler
  else if ciEq name "cleanup rewrite" then some skipHandler
  else if ciEq name "citation needed" then some skipHandler
  else if ciEq name "more footnotes" then some skipHandler
  else if ciEq name "reflist" then some skipHandler
  else if ciEq name "update" then some skipHandler
  else if ciEq name "!" then some skipHandler
  else if matchWordPrefixDotStar name "cite" then some citationHandler
  else if ciEq name "citation" then some citationHandler
  else if ciEq name "nowrap" then some nowrapHandler
  else if ciEq name "plainlist" then some plainlistHandler
  else if ciEq name "lang" ∨ ciEq name "langx" then some langHandler
  else if ciEq name "nbsp" then some nbspHandler
  else if ciEq name "start date" then some startDateHandler
  else if ciEq name "marriage" then some marriageHandler
  else if ciEq name "convert" then some convertHandler
  else if ciEq name "birth date and age" then some (dateAndAgeHandler "age")
  else if ciEq name "start date and age" then some (dateAndAgeHandler "years ago")
  else none

/-! ### Template scanning and expansion
(src/wikiconverter.go lines 420-507 and 513-542) -/

/-- The brace-counting scanner of `ConvertWikiTextToHTML`: state is
`inTemplate`, `braceLevel` and the capture buffer; a captured inner text
is emitted each time a `}` arrives at depth 0 inside a template.  The
buffer written outside a template is discarded on entry, exactly as in
the source. -/
def scanTemplatesAux : List Char → Bool → Nat → List Char → List (List Char)
  | [], _, _, _ => []
  | r :: rest, false, bl, buf =>
    if r = '{' then
      if bl + 1 = 2 then scanTemplatesAux rest true 0 []
      else scanTemplatesAux rest false (bl + 1) (buf ++ [r])
    else scanTemplatesAux rest false bl buf
  | r :: rest, true, bl, buf =>
    if r = '{' then scanTemplatesAux rest true (bl + 1) (buf ++ [r])
    else if r = '}' then
      if bl = 0 then buf :: scanTemplatesAux rest false 0 []
      else scanTemplatesAux rest true (bl - 1) (buf ++ [r])
    else scanTemplatesAux rest true bl (buf ++ [r])

/-- All captured top-level template inner texts, in capture order. -/
def scanTemplates (content : String) : List (List Char) :=
  scanTemplatesAux content.data false 0 []

/-- `templateArgsPattern`: `(?s)^([^{}|]+)(?:\|(.*))?$` — a nonempty
brace/bar-free name, optionally a `|` and the raw argument text. -/
def matchTemplateArgs (inner : List Char) : Option (List Char × Option (List Char)) :=
  let m1 := inner.takeWhile (fun c => c ≠ '{' ∧ c ≠ '}' ∧ c ≠ '|')
  let rest := inner.drop m1.length
  if m1 = [] then none
  else
    match rest with
    | [] => some (m1, none)
    | c :: r2 => if c = '|' then some (m1, some r2) else none

/-- Go `parseTemplateArguments`: split on `|` at brace depth 0,
trimming each argument; a trailing empty argument is dropped. -/
def parseTemplateArgsAux : List Char → List Char → Nat → List String
  | [], cur, _ => if cur = [] then [] else [String.mk (trimGo cur)]
  | r :: rest, cur, bl =>
    if r = '{' then parseTemplateArgsAux rest (cur ++ [r]) (bl + 1)
    else if r = '}' then parseTemplateArgsAux rest (cur ++ [r]) (bl - 1)
    else if r = '|' ∧ bl = 0 then
      String.mk (trimGo cur) :: parseTemplateArgsAux rest [] 0
    else parseTemplateArgsAux rest (cur ++ [r]) bl

def parseTemplateArguments (argString : String) : List String :=
  parseTemplateArgsAux argString.data [] 0

/-- The default rendering for an unknown template name. -/
def defaultTemplateSpan (name full : String) : String :=
  "<span style=\"color:#AAA\">No template for \"" ++ name ++ "\": " ++ full ++
    "</span>"

/-- Handler dispatch on the trimmed template name: the first matching
registration, or the default diagnostic span. -/
def applyHandler (name : String) (args : List String) (full : String) : String :=
  match dispatchTemplate name with
  | some h => h args
  | none => defaultTemplateSpan name full

/-- One iteration of the template loop: parse the captured inner text,
convert every argument with `convert` (the recursive call on nested
markup), dispatch, and replace the first occurrence of the original
span text. -/
def processOneTemplate (convert : String → String) (content : String)
    (inner : List Char) : String :=
  let full := "\x7b\x7b" ++ String.mk inner ++ "\x7d\x7d"
  match matchTemplateArgs inner with
  | none => content
  | some m =>
    let args :=
      match m.2 with
      | some a2 =>
        if a2 ≠ [] then (parseTemplateArguments (String.mk a2)).map convert
        else []
      | none => []
    replaceFirst content full (applyHandler (String.mk (trimGo m.1)) args full)

/-- `ConvertWikiTextToHTML` with explicit recursion fuel: headers,
emphasis, lists, links, then the captured templates processed from the
last to the first, recursing into arguments with one unit of fuel less.
Each recursion level strictly decreases the number of `\x7b` runes in
the processed text by at least two (no stage introduces braces), so a
fuel of `length + 1` is never exhausted and the fueled function agrees
with the Go recursion. -/
def convertFuel : Nat → String → String
  | 0, content => content
  | Nat.succ n, content =>
    let c1 := headersStage content
    let c2 := String.mk (emphasisStage c1.data)
    let c3 := processLists c2
    let c4 := String.mk (processLinksF (c3.data.length + 1) c3.data)
    (scanTemplates c4).reverse.foldl
      (fun c inner => processOneTemplate (convertFuel n) c inner) c4

/-- Go `ConvertWikiTextToHTML`. -/
def ConvertWikiTextToHTML (content : String) : String :=
  convertFuel (content.length + 1) content

/-- `+1` for each `<ul>`/`<ol>` output line, `-1` for each
`</ul>`/`</ol>` output line. -/
def tagDelta (l : String) : Int :=
  (if l = "<ul>" ∨ l = "<ol>" then 1 else 0) -
    (if l = "</ul>" ∨ l = "</ol>" then 1 else 0)

/-- Net number of unclosed list tags in an output line list. -/
def tagBalance (lines : List String) : Int := (lines.map tagDelta).sum

end Wikiseek

namespace Wikiseek

/-! ## Theorems -/

theorem cacheFind_mem {oc : OffsetCache} {k : Nat} {p : OffsetPair}
    (h : cacheFind oc k = some p) : (k, p) ∈ oc := by
  induction oc with
  | nil => simp [cacheFind] at h
  | cons kp rest ih =>
    obtain ⟨k', p'⟩ := kp
    by_cases hk : k' = k
    · subst hk
      simp [cacheFind] at h
      subst h
      exact List.mem_cons_self _ _
    · simp [cacheFind, hk] at h
      exact List.mem_cons_of_mem _ (ih h)

theorem pairKey_inj {s e s' e' : Int} (hs : InR s) (he : InR e) (hs' : InR s')
    (he' : InR e') (h : pairKey s e = pairKey s' e') : s = s' ∧ e = e' := by
  obtain ⟨hs1, hs2⟩ := hs; obtain ⟨he1, he2⟩ := he
  obtain ⟨hs1', hs2'⟩ := hs'; obtain ⟨he1', he2'⟩ := he'
  unfold pairKey at h
  have h32 : (2 : Int) ^ 32 = 4294967296 := by norm_num
  have h32n : (2 : Nat) ^ 32 = 4294967296 := by norm_num
  rw [h32] at hs2 he2 hs2' he2'
  rw [h32, h32n] at h
  rw [Int.emod_eq_of_lt hs1 hs2, Int.emod_eq_of_lt he1 he2,
      Int.emod_eq_of_lt hs1' hs2', Int.emod_eq_of_lt he1' he2'] at h
  omega

theorem getOrCreate_spec {oc : OffsetCache} {s e : Int}
    (hoc : CacheOK oc) (hs : InR s) (he : InR e) :
    (getOrCreate oc s e).1 = ⟨s, e⟩ ∧ CacheOK (getOrCreate oc s e).2 := by
  cases hfind : cacheFind oc (pairKey s e) with
  | none =>
    simp only [getOrCreate, hfind]
    refine ⟨by trivial, ?_⟩
    intro kp hkp
    rcases List.mem_cons.mp hkp with rfl | hkp'
    · exact ⟨rfl, hs, he⟩
    · exact hoc kp hkp'
  | some pair =>
    simp only [getOrCreate, hfind]
    obtain ⟨hkey, hps, hpe⟩ := hoc _ (cacheFind_mem hfind)
    obtain ⟨h1, h2⟩ := pairKey_inj hs he hps hpe hkey
    refine ⟨?_, hoc⟩
    cases pair
    simp_all

theorem loadPass1_spec (raws : List RawEntry) (oc : OffsetCache)
    (hoc : CacheOK oc) (h : ∀ r ∈ raws, InR r.start) :
    (loadPass1 raws oc).1
        = raws.map (fun r => ⟨⟨r.start, 0⟩, r.pageId, r.title⟩) ∧
      CacheOK (loadPass1 raws oc).2 := by
  induction raws generalizing oc with
  | nil => exact ⟨rfl, hoc⟩
  | cons r rest ih =>
    have hr : InR r.start := h r (List.mem_cons_self _ _)
    have hzero : InR 0 := by norm_num [InR]
    obtain ⟨hpair, hoc'⟩ := getOrCreate_spec hoc hr hzero
    obtain ⟨ih1, ih2⟩ :=
      ih (getOrCreate oc r.start 0).2 hoc' (fun x hx => h x (List.mem_cons_of_mem _ hx))
    simp only [loadPass1, List.map_cons]
    exact ⟨by rw [hpair, ih1], ih2⟩

theorem nextHigherStart_InR {s : Int} {xs : List Int} (hxs : ∀ x ∈ xs, InR x) :
    InR (nextHigherStart s xs) := by
  induction xs with
  | nil => norm_num [nextHigherStart, InR]
  | cons x rest ih =>
    by_cases h : s < x
    · simpa [nextHigherStart, h] using hxs x (List.mem_cons_self _ _)
    · simp only [nextHigherStart, if_neg h]
      exact ih fun y hy => hxs y (List.mem_cons_of_mem _ hy)

theorem loadPass2_eq_assignEnds (l : List IndexEntry) (oc : OffsetCache)
    (hoc : CacheOK oc) (h : ∀ e ∈ l, InR e.Offsets.Start) :
    loadPass2 l oc = assignEnds l := by
  induction l generalizing oc with
  | nil => rfl
  | cons e rest ih =>
    have hs : InR e.Offsets.Start := h e (List.mem_cons_self _ _)
    have hrest : ∀ x ∈ rest, InR x.Offsets.Start :=
      fun x hx => h x (List.mem_cons_of_mem _ hx)
    have hnxt :
        InR (nextHigherStart e.Offsets.Start (rest.map fun x => x.Offsets.Start)) := by
      apply nextHigherStart_InR
      intro x hx
      obtain ⟨a, ha, rfl⟩ := List.mem_map.mp hx
      exact hrest a ha
    obtain ⟨hp, hoc'⟩ := getOrCreate_spec hoc hs hnxt
    simp only [loadPass2, assignEnds]
    rw [hp, ih _ hoc' hrest]

theorem insertEntry_perm (e : IndexEntry) (l : List IndexEntry) :
    (insertEntry e l).Perm (e :: l) := by
  induction l with
  | nil => exact List.Perm.refl _
  | cons x xs ih =>
    by_cases h : entryLE e x
    · simp [insertEntry, h]
    · simp only [insertEntry, if_neg h]
      exact (ih.cons x).trans (List.Perm.swap e x xs)

theorem sortEntries_perm (l : List IndexEntry) : (sortEntries l).Perm l := by
  induction l with
  | nil => exact List.Perm.refl _
  | cons e rest ih =>
    exact (insertEntry_perm e (sortEntries rest)).trans (ih.cons e)

theorem insertEntry_sorted {e : IndexEntry} {l : List IndexEntry}
    (hl : List.Pairwise (fun a b => a.Offsets.Start ≤ b.Offsets.Start) l) :
    List.Pairwise (fun a b => a.Offsets.Start ≤ b.Offsets.Start) (insertEntry e l) := by
  induction l with
  | nil => simp [insertEntry]
  | cons x xs ih =>
    obtain ⟨hx, hxs⟩ := List.pairwise_cons.mp hl
    by_cases h : entryLE e x
    · have hex : e.Offsets.Start ≤ x.Offsets.Start := by
        simpa [entryLE] using h
      simp only [insertEntry, if_pos h]
      refine List.pairwise_cons.mpr ⟨?_, hl⟩
      intro y hy
      rcases List.mem_cons.mp hy with rfl | hy'
      · exact hex
      · exact le_trans hex (hx y hy')
    · have hxe : x.Offsets.Start ≤ e.Offsets.Start := by
        simp only [entryLE, decide_eq_true_eq] at h
        omega
      simp only [insertEntry, if_neg h]
      refine List.pairwise_cons.mpr ⟨?_, ih hxs⟩
      intro y hy
      have : y ∈ e :: xs := (insertEntry_perm e xs).mem_iff.mp hy
      rcases List.mem_cons.mp this with rfl | hy'
      · exact hxe
      · exact hx y hy'

theorem sortEntries_sorted (l : List IndexEntry) :
    List.Pairwise (fun a b => a.Offsets.Start ≤ b.Offsets.Start) (sortEntries l) := by
  induction l with
  | nil => exact List.Pairwise.nil
  | cons e rest ih => exact insertEntry_sorted ih

theorem nextHigherStart_eq_filter_head (s : Int) (xs : List Int) :
    nextHigherStart s xs
      = ((xs.filter fun x => decide (s < x)).head?).getD 0 := by
  induction xs with
  | nil => rfl
  | cons x rest ih =>
    by_cases h : s < x
    · simp [nextHigherStart, h, List.filter_cons]
    · simp [nextHigherStart, h, List.filter_cons, ih]

theorem sorted_min?_eq_head? {xs : List Int} (h : List.Pairwise (· ≤ ·) xs) :
    xs.min? = xs.head? := by
  induction xs with
  | nil => rfl
  | cons x rest ih =>
    cases rest with
    | nil => rfl
    | cons y t =>
      have hx_le : x ≤ y := (List.pairwise_cons.mp h).1 y (List.mem_cons_self _ _)
      have ih' := ih (List.pairwise_cons.mp h).2
      rw [List.min?_cons, ih']
      simp [min_eq_left hx_le]

theorem assignEnds_map_start (l : List IndexEntry) :
    (assignEnds l).map (fun e => e.Offsets.Start)
      = l.map (fun e => e.Offsets.Start) := by
  induction l with
  | nil => rfl
  | cons e rest ih => simp [assignEnds, ih]

theorem assignEnds_pairwise {l : List IndexEntry}
    (h : List.Pairwise (fun a b => a.Offsets.Start ≤ b.Offsets.Start) l) :
    List.Pairwise (fun a b => a.Offsets.Start ≤ b.Offsets.Start) (assignEnds l) := by
  have h1 : List.Pairwise (· ≤ ·)
      ((assignEnds l).map fun e => e.Offsets.Start) := by
    rw [assignEnds_map_start]
    exact List.pairwise_map.mpr h
  exact List.pairwise_map.mp h1

theorem assignEnds_ends {l : List IndexEntry}
    (h : List.Pairwise (fun a b => a.Offsets.Start ≤ b.Offsets.Start) l) :
    ∀ p ∈ assignEnds l,
      p.Offsets.End
        = (minStartAbove p.Offsets.Start (l.map fun e => e.Offsets.Start)).getD 0 := by
  induction l with
  | nil => intro p hp; simp [assignEnds] at hp
  | cons e rest ih =>
    obtain ⟨hhead, htail⟩ := List.pairwise_cons.mp h
    intro p hp
    simp only [assignEnds] at hp
    rcases List.mem_cons.mp hp with rfl | hp'
    · show nextHigherStart e.Offsets.Start (rest.map fun x => x.Offsets.Start)
        = (minStartAbove e.Offsets.Start
            ((e :: rest).map fun x => x.Offsets.Start)).getD 0
      have hsorted : List.Pairwise (· ≤ ·) (rest.map fun x => x.Offsets.Start) :=
        List.pairwise_map.mpr htail
      have hfsorted : List.Pairwise (· ≤ ·)
          ((rest.map fun x => x.Offsets.Start).filter
            fun x => decide (e.Offsets.Start < x)) :=
        List.Pairwise.sublist (List.filter_sublist _) hsorted
      have hdrop : minStartAbove e.Offsets.Start
            ((e :: rest).map fun x => x.Offsets.Start)
          = minStartAbove e.Offsets.Start (rest.map fun x => x.Offsets.Start) := by
        simp [minStartAbove, List.filter_cons]
      rw [hdrop, nextHigherStart_eq_filter_head]
      unfold minStartAbove
      rw [sorted_min?_eq_head? hfsorted]
    · have hmem : p.Offsets.Start ∈ rest.map fun x => x.Offsets.Start := by
        rw [← assignEnds_map_start]
        exact List.mem_map_of_mem _ hp'
      obtain ⟨a, ha, hstart⟩ := List.mem_map.mp hmem
      have hle : e.Offsets.Start ≤ p.Offsets.Start := by
        rw [← hstart]; exact hhead a ha
      have hne : ¬ (p.Offsets.Start < e.Offsets.Start) := not_lt.mpr hle
      rw [ih htail p hp']
      simp [minStartAbove, List.filter_cons, hne]

/-- C1 counterexample: the claimed invariant fails on a concrete build.
With start offsets `5` and `2^32`, the second pass asks for the pair
`(5, 2^32)`, whose dedup key collides with the first-pass pair `(5, 0)`;
the entry with start 5 therefore keeps `End = 0` although a strictly
greater start (`2^32`) exists. -/
theorem loadIndex_collision_counterexample :
    ¬ IndexInvariant (loadIndexModel collisionRaws) := by
  unfold IndexInvariant
  decide

/-- C1 (amended): for every build whose scanned start offsets lie in
`[0, 2^32)` (so the dedup key is collision-free), the built index is
sorted ascending by `Offsets.Start` and every entry's `Offsets.End`
equals the smallest start strictly greater than its own start, `0`
(unbounded) when there is none. -/
theorem loadIndex_invariant (raws : List RawEntry)
    (h : ∀ r ∈ raws, 0 ≤ r.start ∧ r.start < 2 ^ 32) :
    IndexInvariant (loadIndexModel raws) := by
  have hoc0 : CacheOK newOffsetCache := by
    intro kp hkp
    simp [newOffsetCache] at hkp
  have hraws : ∀ r ∈ raws, InR r.start := h
  obtain ⟨h1, hoc1⟩ := loadPass1_spec raws newOffsetCache hoc0 hraws
  have hperm : (sortEntries (loadPass1 raws newOffsetCache).1).Perm
      (loadPass1 raws newOffsetCache).1 := sortEntries_perm _
  have hmem : ∀ e ∈ sortEntries (loadPass1 raws newOffsetCache).1,
      InR e.Offsets.Start := by
    intro e he
    have hin : e ∈ (loadPass1 raws newOffsetCache).1 := hperm.mem_iff.mp he
    rw [h1] at hin
    obtain ⟨r, hr, rfl⟩ := List.mem_map.mp hin
    exact hraws r hr
  have hpair : List.Pairwise (fun a b => a.Offsets.Start ≤ b.Offsets.Start)
      (sortEntries (loadPass1 raws newOffsetCache).1) := sortEntries_sorted _
  have h2 : loadIndexModel raws
      = assignEnds (sortEntries (loadPass1 raws newOffsetCache).1) :=
    loadPass2_eq_assignEnds _ _ hoc1 hmem
  rw [h2]
  refine ⟨assignEnds_pairwise hpair, ?_⟩
  intro p hp
  rw [assignEnds_ends hpair p hp, assignEnds_map_start]

/-- C1 witness: a concrete collision-free build satisfying the amended
invariant. -/
theorem loadIndex_invariant_witness :
    IndexInvariant (loadIndexModel [⟨5, 1, "A"⟩, ⟨7, 2, "B"⟩]) :=
  loadIndex_invariant _ (by decide)

/-- C2: the dedup key of `getOrCreate` drops the upper 32 bits of both
offsets, so the structurally different pairs `(0,0)` and `(2^32,0)`
collide: the second call returns the stored pair `{0,0}` whose `Start`
is not the requested start.  The code contradicts its own comment
("Create a unique key from the two int64s"). -/
theorem getOrCreate_collision :
    (getOrCreate (getOrCreate newOffsetCache 0 0).2 (2 ^ 32) 0).1
        = (getOrCreate newOffsetCache 0 0).1 ∧
      (getOrCreate (getOrCreate newOffsetCache 0 0).2 (2 ^ 32) 0).1.Start = 0 ∧
      ((2 : Int) ^ 32 ≠ 0) := by
  refine ⟨rfl, rfl, by decide⟩

theorem equalFold_refl (a : String) : equalFold a a = true := by
  simp [equalFold]

/-- C3: `Lookup` first normalizes underscores in the query to spaces,
then returns the first entry whose title equals the normalized query
case-sensitively; if no such entry exists it returns the first entry
matching case-insensitively; if neither exists it reports not-found.
The three conjuncts state exactly those three cases, with "first"
expressed through an arbitrary split of the entry list. -/
theorem findPageByTitle_spec (entries : List IndexEntry) (title : String) :
    (∀ pre e post, entries = pre ++ e :: post →
        e.Title = underscoresToSpaces title →
        (∀ x ∈ pre, x.Title ≠ underscoresToSpaces title) →
        findPageByTitle entries title = some e) ∧
      ((∀ x ∈ entries, x.Title ≠ underscoresToSpaces title) →
        ∀ pre e post, entries = pre ++ e :: post →
          equalFold e.Title (underscoresToSpaces title) = true →
          (∀ x ∈ pre, equalFold x.Title (underscoresToSpaces title) = false) →
          findPageByTitle entries title = some e) ∧
      ((∀ x ∈ entries, equalFold x.Title (underscoresToSpaces title) = false) →
        findPageByTitle entries title = none) := by
  refine ⟨?_, ?_, ?_⟩
  · intro pre e post heq hmatch hpre
    have hfind : entries.find? (fun x => x.Title == underscoresToSpaces title)
        = some e := by
      subst heq
      rw [List.find?_append]
      have h1 : pre.find? (fun x => x.Title == underscoresToSpaces title) = none :=
        List.find?_eq_none.mpr (fun x hx => by simpa using hpre x hx)
      have h2 : (e :: post).find? (fun x => x.Title == underscoresToSpaces title)
          = some e :=
        List.find?_cons_of_pos _ (by simpa using hmatch)
      rw [h1, h2]
      rfl
    simp [findPageByTitle, hfind]
  · intro hnoexact pre e post heq hmatch hpre
    have hexact : entries.find? (fun x => x.Title == underscoresToSpaces title)
        = none :=
      List.find?_eq_none.mpr (fun x hx => by simpa using hnoexact x hx)
    have hfold : entries.find?
        (fun x => equalFold x.Title (underscoresToSpaces title)) = some e := by
      subst heq
      rw [List.find?_append]
      have h1 : pre.find? (fun x => equalFold x.Title (underscoresToSpaces title))
          = none :=
        List.find?_eq_none.mpr (fun x hx => by simp [hpre x hx])
      have h2 : (e :: post).find?
          (fun x => equalFold x.Title (underscoresToSpaces title)) = some e :=
        List.find?_cons_of_pos _ hmatch
      rw [h1, h2]
      rfl
    simp [findPageByTitle, hexact, hfold]
  · intro hnofold
    have hexact : entries.find? (fun x => x.Title == underscoresToSpaces title)
        = none := by
      refine List.find?_eq_none.mpr (fun x hx => ?_)
      intro hbeq
      have hx_eq : x.Title = underscoresToSpaces title := by simpa using hbeq
      have hcontra := hnofold x hx
      rw [hx_eq, equalFold_refl] at hcontra
      simp at hcontra
    have hfold : entries.find?
        (fun x => equalFold x.Title (underscoresToSpaces title)) = none :=
      List.find?_eq_none.mpr (fun x hx => by simp [hnofold x hx])
    simp [findPageByTitle, hexact, hfold]

/-- C3 witness: with entries `foo` then `Foo`, looking up `"Foo"`
returns the later, case-exact entry rather than the earlier
case-insensitive one. -/
theorem findPageByTitle_spec_witness :
    findPageByTitle [⟨⟨0, 0⟩, 1, "foo"⟩, ⟨⟨0, 0⟩, 2, "Foo"⟩] "Foo"
      = some ⟨⟨0, 0⟩, 2, "Foo"⟩ :=
  (findPageByTitle_spec _ "Foo").1 [⟨⟨0, 0⟩, 1, "foo"⟩] ⟨⟨0, 0⟩, 2, "Foo"⟩ []
    rfl (by decide) (by decide)

/-- C7: reloading a saved snapshot yields the original table:
`loadIndexCache (saveIndexCache entries) = some entries`. -/
theorem saveLoad_roundtrip (entries : List IndexEntry) :
    loadIndexCache (saveIndexCache entries) = some entries := by
  induction entries with
  | nil => rfl
  | cons e rest ih => simp [saveIndexCache, loadIndexCache, ih]

/-- C10: searching with the empty query returns every entry of the index
in index order (the substring test holds vacuously). -/
theorem searchIndex_empty_query (entries : List IndexEntry) :
    searchIndex entries "" = entries := by
  have h : ∀ e : IndexEntry,
      containsSub (goToLower e.Title).data (goToLower "").data = true := by
    intro e
    show containsSub (goToLower e.Title).data [] = true
    rw [containsSub.eq_def]
    simp
  simp [searchIndex, List.filter_eq_self]
  intro e _
  exact h e

theorem tagBalance_append (a b : List String) :
    tagBalance (a ++ b) = tagBalance a + tagBalance b := by
  simp [tagBalance]

theorem closeToDepth_spec (stack : List String) (depth : Nat) :
    closeToDepth stack depth
      = ((stack.take (stack.length - depth)).map (fun t => "</" ++ t ++ ">"),
          stack.drop (stack.length - depth)) := by
  induction stack with
  | nil => simp [closeToDepth]
  | cons t rest ih =>
    by_cases h : rest.length + 1 > depth
    · have hsub : (t :: rest).length - depth = (rest.length - depth) + 1 := by
        simp only [List.length_cons]; omega
      simp only [closeToDepth, if_pos h, ih, hsub]
      simp
    · have hsub : rest.length + 1 - depth = 0 := by omega
      simp [closeToDepth, if_neg h, hsub]

theorem openN_spec (lt : String) (stack : List String) (n : Nat) :
    openN lt stack n
      = (List.replicate n ("<" ++ lt ++ ">"), List.replicate n lt ++ stack) := by
  induction n generalizing stack with
  | zero => rfl
  | succ n ih =>
    simp only [openN, ih, Prod.mk.injEq]
    constructor
    · rw [List.replicate_succ]
    · rw [List.replicate_succ' n lt, List.append_assoc]
      rfl

theorem tagBalance_closes {stack : List String}
    (hs : ∀ t ∈ stack, t = "ul" ∨ t = "ol") :
    tagBalance (stack.map (fun t => "</" ++ t ++ ">")) = -(stack.length : Int) := by
  induction stack with
  | nil => simp [tagBalance]
  | cons t rest ih =>
    have ht := hs t (List.mem_cons_self _ _)
    have hrest := fun x hx => hs x (List.mem_cons_of_mem _ hx)
    have hdelta : tagDelta ("</" ++ t ++ ">") = -1 := by
      rcases ht with rfl | rfl <;> decide
    have ihr := ih hrest
    simp only [tagBalance, List.map_cons, List.sum_cons] at *
    rw [hdelta, ihr]
    simp only [List.length_cons]
    push_cast
    ring

theorem tagBalance_opens {lt : String} (h : lt = "ul" ∨ lt = "ol") (n : Nat) :
    tagBalance (List.replicate n ("<" ++ lt ++ ">")) = (n : Int) := by
  induction n with
  | zero => simp [tagBalance]
  | succ n ih =>
    have hdelta : tagDelta ("<" ++ lt ++ ">") = 1 := by
      rcases h with rfl | rfl <;> decide
    simp only [List.replicate_succ, tagBalance, List.map_cons, List.sum_cons] at *
    rw [hdelta, ih]
    push_cast
    ring

theorem tagDelta_li (item : String) : tagDelta ("<li>" ++ item ++ "</li>") = 0 := by
  have hlen : ("<li>" ++ item ++ "</li>").length = 4 + item.length + 5 := by
    rw [String.length_append, String.length_append]
    rfl
  have h1 : ¬ ("<li>" ++ item ++ "</li>" = "<ul>") := by
    intro h
    have := congrArg String.length h
    rw [hlen] at this
    have h4 : ("<ul>" : String).length = 4 := rfl
    omega
  have h2 : ¬ ("<li>" ++ item ++ "</li>" = "<ol>") := by
    intro h
    have := congrArg String.length h
    rw [hlen] at this
    have h4 : ("<ol>" : String).length = 4 := rfl
    omega
  have h3 : ¬ ("<li>" ++ item ++ "</li>" = "</ul>") := by
    intro h
    have := congrArg String.length h
    rw [hlen] at this
    have h4 : ("</ul>" : String).length = 5 := rfl
    omega
  have h4 : ¬ ("<li>" ++ item ++ "</li>" = "</ol>") := by
    intro h
    have := congrArg String.length h
    rw [hlen] at this
    have h5 : ("</ol>" : String).length = 5 := rfl
    omega
  simp [tagDelta, h1, h2, h3, h4]

theorem processListsLines_balance (lines : List String) :
    ∀ stack : List String,
      (∀ l ∈ lines, isListLine l = true) →
      (∀ t ∈ stack, t = "ul" ∨ t = "ol") →
      tagBalance (processListsLines lines stack) = -(stack.length : Int) := by
  induction lines with
  | nil =>
    intro stack _ hs
    simpa [processListsLines] using tagBalance_closes hs
  | cons line rest ih =>
    intro stack hl hs
    have hline : isListLine line = true := hl line (List.mem_cons_self _ _)
    have hrestl : ∀ l ∈ rest, isListLine l = true :=
      fun l h => hl l (List.mem_cons_of_mem _ h)
    simp only [processListsLines, hline, if_pos, closeToDepth_spec, openN_spec]
    set trimmed := goTrimSpace line with htr
    set listType := if trimmed.data.head? = some '#' then "ol" else "ul" with hlt
    set depth := (trimmed.data.takeWhile (fun c => c = '*' ∨ c = '#')).length with hd
    have hltmem : listType = "ul" ∨ listType = "ol" := by
      rw [hlt]
      by_cases hh : trimmed.data.head? = some '#' <;> simp [hh]
    set k := stack.length - depth with hk
    set newstack := stack.drop k with hns
    have hnslen : newstack.length = stack.length - k := by
      rw [hns]; simp
    set m := depth - newstack.length with hm
    have hnewmem : ∀ t ∈ newstack, t = "ul" ∨ t = "ol" := by
      intro t ht
      exact hs t (List.mem_of_mem_drop ht)
    have hstack2 : ∀ t ∈ List.replicate m listType ++ newstack,
        t = "ul" ∨ t = "ol" := by
      intro t ht
      rcases List.mem_append.mp ht with h1 | h2
      · rw [List.eq_of_mem_replicate h1]; exact hltmem
      · exact hnewmem t h2
    have hrec := ih (List.replicate m listType ++ newstack) hrestl hstack2
    rw [tagBalance_append, tagBalance_append]
    rw [tagBalance_closes (fun t ht => hs t (List.mem_of_mem_take ht))]
    rw [tagBalance_opens hltmem]
    simp only [tagBalance, List.map_cons, List.sum_cons] at hrec ⊢
    rw [tagDelta_li, hrec]
    simp only [List.length_append, List.length_replicate, List.length_take]
    push_cast
    omega

/-- C9 counterexample: switching the marker type does not terminate the
current list structure.  For `"* a\n# b"` the `#` item is emitted inside
the still-open `<ul>`: no `</ul>` is emitted before it and no `<ol>` is
ever opened. -/
theorem processLists_type_switch_counterexample :
    processLists "* a\n# b" = "<ul>\n<li>a</li>\n<li>b</li>\n</ul>" ∧
      containsSub ("<ul>\n<li>a</li>\n<li>b</li>\n</ul>").data ("<ol>").data
        = false := by
  exact ⟨by decide, by decide⟩

/-- C9 (amended): contiguous marker lines become nested lists with depth
equal to the leading marker count; depth increases open tags and
decreases close them; switching the marker type at equal depth continues
the current list (it does not terminate it).  The spec's example
`"* a\n** b\n* c"` produces balanced tags with exactly one transition up
and one down, and in general any all-list-line input yields balanced
open/close list tags. -/
theorem processLists_nesting :
    processLists "* a\n** b\n* c"
        = "<ul>\n<li>a</li>\n<ul>\n<li>b</li>\n</ul>\n<li>c</li>\n</ul>" ∧
      ∀ lines : List String, (∀ l ∈ lines, isListLine l = true) →
        tagBalance (processListsLines lines []) = 0 := by
  refine ⟨by decide, fun lines hl => ?_⟩
  simpa using processListsLines_balance lines [] hl (by simp)

/-- C9 witness: the amended balance statement applied to the spec's
concrete example. -/
theorem processLists_nesting_witness :
    tagBalance (processListsLines ["* a", "** b", "* c"] []) = 0 :=
  processLists_nesting.2 ["* a", "** b", "* c"] (by decide)

/-- C4: nested macros inside an argument are resolved before the
enclosing macro's handler runs.  First conjunct: whenever the captured
inner text parses into a name and argument text, the template step
passes the handler the parsed arguments each mapped through the
conversion function (the recursive, depth-first expansion) before
dispatch.  Second conjunct: end to end, in `{{nowrap|{{nbsp}}}}` the
inner `nbsp` macro is expanded to `&nbsp;` before `nowrap` receives its
argument, so the `nowrap` handler wraps the already-resolved text. -/
theorem convert_nested_innermost :
    (∀ (f : String → String) (content : String) (inner m1 a2 : List Char),
        matchTemplateArgs inner = some (m1, some a2) → a2 ≠ [] →
        processOneTemplate f content inner
          = replaceFirst content ("\x7b\x7b" ++ String.mk inner ++ "\x7d\x7d")
              (applyHandler (String.mk (trimGo m1))
                ((parseTemplateArguments (String.mk a2)).map f)
                ("\x7b\x7b" ++ String.mk inner ++ "\x7d\x7d"))) ∧
      ConvertWikiTextToHTML "\x7b\x7bnowrap|\x7b\x7bnbsp\x7d\x7d\x7d\x7d"
        = "<span style=\"white-space:nowrap\">&nbsp;</span>" := by
  constructor
  · intro f content inner m1 a2 hm ha
    simp only [processOneTemplate, hm]
    rw [if_pos ha]
  · decide

/-- C4 witness: the structural conjunct applied at a concrete
invocation. -/
theorem convert_nested_innermost_witness :
    processOneTemplate ConvertWikiTextToHTML "\x7b\x7bnowrap|x\x7d\x7d"
        ("nowrap|x").data
      = "<span style=\"white-space:nowrap\">x</span>" := by
  rw [convert_nested_innermost.1 ConvertWikiTextToHTML _ ("nowrap|x").data
    ("nowrap").data ("x").data (by decide) (by decide)]
  decide

/-- C5 counterexample: an unknown macro invocation whose span text was
already consumed by an earlier replacement is silently left raw, with
no diagnostic.  In `{{a|{{b}}}} {{b}}` the trailing `{{b}}` is processed
first and `strings.Replace(content, "{{b}}", diag, 1)` rewrites the
*first* occurrence — the one nested inside `{{a|...}}` — so the later
replacement of `{{a|{{b}}}}` finds no occurrence and the unknown macro
`a` (third conjunct: no handler matches it) yields no diagnostic
fragment containing its original text (second conjunct). -/
theorem convert_unknown_macro_lost :
    ConvertWikiTextToHTML "\x7b\x7ba|\x7b\x7bb\x7d\x7d\x7d\x7d \x7b\x7bb\x7d\x7d"
        = "\x7b\x7ba|<span style=\"color:#AAA\">No template for \"b\": \x7b\x7bb\x7d\x7d</span>\x7d\x7d \x7b\x7bb\x7d\x7d" ∧
      containsSub
          ("\x7b\x7ba|<span style=\"color:#AAA\">No template for \"b\": \x7b\x7bb\x7d\x7d</span>\x7d\x7d \x7b\x7bb\x7d\x7d").data
          ("\x7b\x7ba|\x7b\x7bb\x7d\x7d\x7d\x7d").data = false ∧
      (dispatchTemplate "a").isNone = true := by
  exact ⟨by decide, by decide, by decide⟩

theorem containsSub_of_eq_append (needle pre post : List Char) :
    containsSub (pre ++ needle ++ post) needle = true := by
  induction pre with
  | nil =>
    simp only [List.nil_append]
    rw [containsSub.eq_def]
    have hpre : needle.isPrefixOf (needle ++ post) = true :=
      List.isPrefixOf_iff_prefix.mpr (List.prefix_append _ _)
    simp [hpre]
  | cons c pre ih =>
    have hgoal : (c :: pre) ++ needle ++ post = c :: (pre ++ needle ++ post) := by
      simp
    rw [hgoal, containsSub.eq_def]
    by_cases h : needle.isPrefixOf (c :: (pre ++ needle ++ post))
    · rw [if_pos h]
    · rw [if_neg h]
      exact ih

theorem replaceFirstL_eq_append (old new hay : List Char)
    (h : containsSub hay old = true) :
    ∃ pre post, replaceFirstL old new hay = pre ++ new ++ post := by
  induction hay with
  | nil =>
    by_cases hp : old.isPrefixOf ([] : List Char)
    · exact ⟨[], [], by simp [replaceFirstL, hp]⟩
    · rw [containsSub.eq_def] at h
      simp [hp] at h
  | cons c t ih =>
    by_cases hp : old.isPrefixOf (c :: t)
    · exact ⟨[], (c :: t).drop old.length, by simp [replaceFirstL, hp]⟩
    · rw [containsSub.eq_def] at h
      simp only [hp, if_false, Bool.false_eq_true] at h
      obtain ⟨pre, post, heq⟩ := ih h
      exact ⟨c :: pre, post, by simp [replaceFirstL, hp, heq]⟩

/-- `strings.Replace(content, old, new, 1)` leaves an occurrence of
`new` in its output whenever `old` occurs in `content`. -/
theorem replaceFirst_contains (content old new : String)
    (h : containsSub content.data old.data = true) :
    containsSub (replaceFirst content old new).data new.data = true := by
  obtain ⟨pre, post, heq⟩ := replaceFirstL_eq_append old.data new.data content.data h
  show containsSub (replaceFirstL old.data new.data content.data) new.data = true
  rw [heq]
  exact containsSub_of_eq_append _ _ _

/-- The diagnostic span contains the unresolved macro's original span
text. -/
theorem defaultTemplateSpan_contains (name full : String) :
    containsSub (defaultTemplateSpan name full).data full.data = true := by
  have hdec : (defaultTemplateSpan name full).data
      = (("<span style=\"color:#AAA\">No template for \"" ++ name ++ "\": ").data)
        ++ full.data ++ (("</span>").data) := by
    simp [defaultTemplateSpan, String.data_append]
  rw [hdec]
  exact containsSub_of_eq_append _ _ _

theorem applyHandler_of_none (name : String) (args : List String) (full : String)
    (h : (dispatchTemplate name).isNone = true) :
    applyHandler name args full = defaultTemplateSpan name full := by
  cases hd : dispatchTemplate name with
  | some g => rw [hd] at h; simp at h
  | none => simp [applyHandler, hd]

/-- C5 (amended): conversion is total, and an unknown macro is never
silently dropped at its own resolution step.  First conjunct
(universal): for every conversion function, every working document and
every captured invocation whose parsed name matches no registered
handler, if the invocation's original span text still occurs in the
working document at its turn, then the document produced by that step
contains the visibly distinct diagnostic span for that invocation.
Second conjunct (universal): every such diagnostic span contains the
unresolved macro's original text.  The remaining conjuncts instantiate
the spec's own test: `{{notreal|x}}` converts to exactly the diagnostic
span, `notreal` matches no handler, and the output contains the literal
substring `notreal`. -/
theorem convert_unknown_macro_diagnostic :
    (∀ (f : String → String) (content : String) (inner m1 : List Char)
        (m2 : Option (List Char)),
        matchTemplateArgs inner = some (m1, m2) →
        (dispatchTemplate (String.mk (trimGo m1))).isNone = true →
        containsSub content.data
            ("\x7b\x7b" ++ String.mk inner ++ "\x7d\x7d").data = true →
        containsSub (processOneTemplate f content inner).data
            (defaultTemplateSpan (String.mk (trimGo m1))
              ("\x7b\x7b" ++ String.mk inner ++ "\x7d\x7d")).data = true) ∧
      (∀ name full : String,
        containsSub (defaultTemplateSpan name full).data full.data = true) ∧
      ConvertWikiTextToHTML "\x7b\x7bnotreal|x\x7d\x7d"
        = "<span style=\"color:#AAA\">No template for \"notreal\": \x7b\x7bnotreal|x\x7d\x7d</span>" ∧
      (dispatchTemplate "notreal").isNone = true ∧
      containsSub (ConvertWikiTextToHTML "\x7b\x7bnotreal|x\x7d\x7d").data
          ("notreal").data = true := by
  refine ⟨?_, defaultTemplateSpan_contains, by decide, by decide, by decide⟩
  intro f content inner m1 m2 hm hdisp hocc
  simp only [processOneTemplate, hm]
  rw [applyHandler_of_none _ _ _ hdisp]
  exact replaceFirst_contains _ _ _ hocc

/-- C5 witness: the universal diagnostic statement applied to the
single-macro document `{{notreal|x}}` at its only resolution step. -/
theorem convert_unknown_macro_diagnostic_witness :
    containsSub (processOneTemplate ConvertWikiTextToHTML
        "\x7b\x7bnotreal|x\x7d\x7d" ("notreal|x").data).data
      (defaultTemplateSpan (String.mk (trimGo ("notreal").data))
        ("\x7b\x7b" ++ String.mk (("notreal|x").data) ++ "\x7d\x7d")).data = true :=
  convert_unknown_macro_diagnostic.1 ConvertWikiTextToHTML
    "\x7b\x7bnotreal|x\x7d\x7d" ("notreal|x").data ("notreal").data
    (some ("x").data) (by decide) (by decide) (by decide)

/-- C8: `headerPattern` does not require the leading and trailing `=`
counts to match, contradicting the claim (and the comment "with
symmetrical equals signs"): the asymmetric line `"== Header ="` (two
leading, one trailing) is converted into a level-2 heading, exactly as
the symmetric `"== Header =="` is. -/
theorem header_asymmetric_match :
    ConvertWikiTextToHTML "== Header =" = "<h2>Header</h2>" ∧
      ConvertWikiTextToHTML "== Header ==" = "<h2>Header</h2>" := by
  exact ⟨by decide, by decide⟩

/-- C6: on a valid single-block archive (`[7,7]`, decompressing to
`[1,2,3]`), `ExtractBzip2Range` with `start = 0, end = 0` allocates an
`end-start = 0`-byte buffer, so it decompresses the empty buffer and
fails instead of reading to EOF and returning the full content. -/
theorem extract_unbounded_fails :
    extractBzip2Range toyDec [7, 7] 0 0 = none ∧ toyDec [7, 7] = some [1, 2, 3] := by
  constructor <;> rfl

end Wikiseek
